import Mathlib

/-!
Verification of `add_templated_resource.py` (circus2): a shallow embedding of
its flattening, merging, query-filter and main-loop logic, with proofs of the
specified properties.

Python dictionaries are modelled as insertion-ordered association lists
`List (String × α)`; `dictSet` and `dictUpdate` mirror `dict.__setitem__`
and `dict.update` (an existing key keeps its position, a new key is appended).
JSON-compatible values are the inductive `JVal`.  Integer keys produced by
`enumerate` over lists are modelled by their decimal string image (`natStr`),
which is faithful because such keys are only ever used after being
stringified by `"%s_%s" % (key, k)` or compared within an all-integer dict.
-/

inductive JVal where
  | str  : String → JVal
  | num  : Int → JVal
  | bool : Bool → JVal
  | null : JVal
  | arr  : List JVal → JVal
  | obj  : List (String × JVal) → JVal
deriving Repr

abbrev Dict := List (String × JVal)

/-- Lookup in a Python-style dict (first matching key). -/
def dictGet {α : Type} : List (String × α) → String → Option α
  | [], _ => none
  | (k', v) :: t, k => if k' = k then some v else dictGet t k

/-- `d[k] = v` on a Python-style dict: replace in place, or append. -/
def dictSet {α : Type} : List (String × α) → String → α → List (String × α)
  | [], k, v => [(k, v)]
  | (k', v') :: t, k, v =>
    if k' = k then (k', v) :: t else (k', v') :: dictSet t k v

/-- `d.update(e)` on Python-style dicts. -/
def dictUpdate {α : Type} (d e : List (String × α)) : List (String × α) :=
  e.foldl (fun acc p => dictSet acc p.1 p.2) d

/-- A real Python dict has no duplicate keys. -/
def nodupKeys {α : Type} (d : List (String × α)) : Prop :=
  d.Pairwise (fun p q => p.1 ≠ q.1)

instance {α : Type} (d : List (String × α)) : Decidable (nodupKeys d) := by
  unfold nodupKeys; infer_instance

/-- `type(v) in [dict, list]` from the Python source. -/
def isComposite : JVal → Bool
  | .arr _ => true
  | .obj _ => true
  | _ => false

/-! ### Decimal rendering of naturals (Python `str` of an `int` index) -/

/-- Digit characters, as produced by decimal printing. -/
def digChar (n : Nat) : Char := Nat.digitChar n

/-- Fuel-based decimal digits of `n` (most significant first). -/
def natStrCore : Nat → Nat → List Char
  | 0, _ => []
  | fuel + 1, n =>
    if n < 10 then [digChar n]
    else natStrCore fuel (n / 10) ++ [digChar (n % 10)]

/-- Decimal string of a natural number, e.g. `natStr 12 = "12"`. -/
def natStr (n : Nat) : String := ⟨natStrCore (n + 1) n⟩

/-- Python `str` of an integer. -/
def intStr (n : Int) : String :=
  if n < 0 then "-" ++ natStr n.natAbs else natStr n.natAbs

/-! ### The flattener (`flatten_dict` in the source) -/

/-- `dict(((k, v) for k, v in enumerate(l)))` starting at index `i`:
integer keys modelled by their decimal strings. -/
def listToDictFrom (i : Nat) : List JVal → Dict
  | [] => []
  | v :: t => (natStr i, v) :: listToDictFrom (i + 1) t

/-- A list viewed as a dict keyed `0, 1, 2, …`. -/
def listToDict (l : List JVal) : Dict := listToDictFrom 0 l

/-- The scalar entries of `d`, in order (`type(v) not in [dict, list]`). -/
def scalarsOf (d : Dict) : Dict :=
  d.filter (fun p => !isComposite p.2)

/-- The dict-valued entries of `d`, in order. -/
def objEntries (d : Dict) : List (String × Dict) :=
  d.filterMap (fun p => match p.2 with
    | .obj e => some (p.1, e)
    | _ => none)

/-- The list-valued entries of `d` (converted to dicts), in order. -/
def arrEntries (d : Dict) : List (String × Dict) :=
  d.filterMap (fun p => match p.2 with
    | .arr l => some (p.1, listToDict l)
    | _ => none)

/-- The sub-dictionaries `flatten_dict` recurses into: dict-valued entries in
order, then list-valued entries (converted) appended, as in the source. -/
def subDictsOf (d : Dict) : List (String × Dict) :=
  objEntries d ++ arrEntries d

/-- `dict(("%s_%s" % (key, k), v) for k, v in e)`. -/
def rekey (key : String) (e : Dict) : Dict :=
  e.map (fun p => (key ++ "_" ++ p.1, p.2))

mutual
/-- Depth of a value, used as recursion fuel for the flattener. -/
def val_depth : JVal → Nat
  | .obj e => entries_depth e + 1
  | .arr l => elems_depth l + 1
  | _ => 0
def entries_depth : List (String × JVal) → Nat
  | [] => 0
  | (_, v) :: t => max (val_depth v) (entries_depth t)
def elems_depth : List JVal → Nat
  | [] => 0
  | v :: t => max (val_depth v) (elems_depth t)
end

/-- Fuel-based flattener, mirroring `flatten_dict` line by line: scalars are
copied first, then each sub-dictionary is flattened recursively, re-keyed with
the `_`-joined prefix, and merged in with `update`. -/
def flattenF : Nat → Dict → Option Dict
  | 0, _ => none
  | fuel + 1, d =>
    (subDictsOf d).foldlM
      (fun acc p => (flattenF fuel p.2).map (fun f => dictUpdate acc (rekey p.1 f)))
      (dictUpdate ([] : Dict) (scalarsOf d))

/-- `flatten_dict`: total flattener (the depth bound is proven sufficient in
`flattenF_complete` below). -/
def flatten_dict (d : Dict) : Dict :=
  (flattenF (entries_depth d + 1) d).getD []

/-- `merge_params` from the source: start empty, `update` with the static
variables, then `update` with the flattened resource. -/
def merge_params (static_vars : Dict) (resource : Dict) : Dict :=
  dictUpdate (dictUpdate ([] : Dict) static_vars) (flatten_dict resource)

/-! ### The query filter (`run_query` in the source) -/

/-- `s.split('=', 1)` when it yields a pair: split at the first `=`. -/
def splitEqAux : List Char → Option (List Char × List Char)
  | [] => none
  | c :: t =>
    if c = '=' then some ([], t)
    else (splitEqAux t).map (fun p => (c :: p.1, p.2))

/-- `k, v = filter.split('=', 1)`; `none` models the `ValueError` raised when
the filter string holds no `=`. -/
def split_first_eq (s : String) : Option (String × String) :=
  (splitEqAux s.data).map (fun p => (⟨p.1⟩, ⟨p.2⟩))

/-- A regex group value: `None` for a non-participating group becomes `null`,
a captured text becomes a string. -/
def optToJVal : Option String → JVal
  | none => .null
  | some s => .str s

/-- `for i, j in enumerate(match.groups()): r['group%s' % (i+1)] = j`,
with `i` starting at the given index. -/
def addGroupsFrom (i : Nat) (r : Dict) : List (Option String) → Dict
  | [] => r
  | g :: t => addGroupsFrom (i + 1) (dictSet r ("group" ++ natStr (i + 1)) (optToJVal g)) t

/-- `run_query`, parameterised by the `re.search` collaborator: `search pat s`
returns `some groups` when the pattern matches somewhere in `s` (each group
captured text or `none`), and `none` when it does not match.  Errors model the
`ValueError` of a filter without `=`, the `KeyError` of a record lacking the
field, and the `TypeError` of `re.search` on a non-string value. -/
def run_query (search : String → String → Option (List (Option String)))
    (filt : String) (results : List Dict) : Except String (List Dict) :=
  match split_first_eq filt with
  | none => .error "ValueError"
  | some (k, v) =>
    results.foldlM (fun acc r =>
      match dictGet r k with
      | some (JVal.str s) =>
        match search v s with
        | some gs => Except.ok (acc ++ [addGroupsFrom 0 r gs])
        | none => Except.ok acc
      | some _ => Except.error "TypeError"
      | none => Except.error "KeyError") []

/-! ### The template engine

Modelled from the spec: `circuslib.template.Template.sub` is not part of this
source file; §4.3 of the specification describes it (recursive walk, `{name}`
format-style substitution inside strings with `{{`/`}}` escapes, failure on an
unresolved variable, list roots substituted element-wise). -/

mutual
/-- Modelled from the spec: the string form of a value (`str(vars[name])`);
composite values are rendered recursively. -/
def jvalStr : JVal → String
  | .str s => s
  | .num n => intStr n
  | .bool b => if b then "True" else "False"
  | .null => "None"
  | .arr l => "[" ++ jvalStrList l ++ "]"
  | .obj e => "\x7b" ++ jvalStrEntries e ++ "\x7d"
def jvalStrList : List JVal → String
  | [] => ""
  | [v] => jvalStr v
  | v :: t => jvalStr v ++ ", " ++ jvalStrList t
def jvalStrEntries : List (String × JVal) → String
  | [] => ""
  | [(k, v)] => k ++ ": " ++ jvalStr v
  | (k, v) :: t => k ++ ": " ++ jvalStr v ++ ", " ++ jvalStrEntries t
end

/-- Modelled from the spec: one pass of format-style placeholder substitution
over a character list.  `{name}` is replaced by the string form of
`vars[name]`, `{{` and `}}` are brace escapes, an unresolved name fails.
Fuel-based; every recursive call consumes at least one character, so fuel
`length + 1` suffices. -/
def substF (vars : Dict) : Nat → List Char → Except String (List Char)
  | 0, _ => .error "out of fuel"
  | _ + 1, [] => .ok []
  | fuel + 1, c :: t =>
    if c = '{' then
      match t with
      | '{' :: t' => (substF vars fuel t').map (fun r => '{' :: r)
      | _ =>
        let name : List Char := t.takeWhile (fun a => a ≠ '}')
        match t.dropWhile (fun a => a ≠ '}') with
        | '}' :: rest =>
          match dictGet vars ⟨name⟩ with
          | some v => (substF vars fuel rest).map (fun r => (jvalStr v).data ++ r)
          | none => .error ("KeyError: " ++ ⟨name⟩)
        | _ => .error "unmatched brace in format string"
    else if c = '}' then
      match t with
      | '}' :: t' => (substF vars fuel t').map (fun r => '}' :: r)
      | _ => .error "unmatched brace in format string"
    else (substF vars fuel t).map (fun r => c :: r)

/-- Modelled from the spec: substitution inside one template string. -/
def substStr (vars : Dict) (s : String) : Except String String :=
  (substF vars (s.data.length + 1) s.data).map (fun l => ⟨l⟩)

mutual
/-- Modelled from the spec: `Template.sub` — recursive substitution over the
template tree; strings are substituted, other scalars pass through, mappings
and sequences are walked preserving structure. -/
def subVal (vars : Dict) : JVal → Except String JVal
  | .str s => (substStr vars s).map .str
  | .num n => .ok (.num n)
  | .bool b => .ok (.bool b)
  | .null => .ok .null
  | .arr l => (subList vars l).map .arr
  | .obj e => (subEntries vars e).map .obj
def subList (vars : Dict) : List JVal → Except String (List JVal)
  | [] => .ok []
  | v :: t => do
    let v' ← subVal vars v
    let t' ← subList vars t
    .ok (v' :: t')
def subEntries (vars : Dict) : List (String × JVal) → Except String (List (String × JVal))
  | [] => .ok []
  | (k, v) :: t => do
    let v' ← subVal vars v
    let t' ← subEntries vars t
    .ok ((k, v') :: t')
end

/-- Lines 145–148 of the source: a list result is extended element-wise into
`to_add`, anything else is appended as a single record. -/
def addProcessed (to_add : List JVal) (processed : JVal) : List JVal :=
  match processed with
  | .arr l => to_add ++ l
  | p => to_add ++ [p]

/-- The main loop over query results: merge, substitute, collect. -/
def process_results (t : JVal) (vars : Dict) (results : List Dict) :
    Except String (List JVal) :=
  results.foldlM (fun acc r => (subVal (merge_params vars r) t).map (addProcessed acc)) []

/-! ### The title-field table -/

/-- The endpoint→label-field table from the source. -/
def title_fields : List (String × String) :=
  [("/graph", "title"),
   ("/check_bundle", "display_name"),
   ("/rule_set", "metric_name"),
   ("/worksheet", "description"),
   ("/template", "name"),
   ("/contact_group", "name"),
   ("/account", "name"),
   ("/broker", "_name"),
   ("/user", "email")]

/-- `field = title_fields[r['_cid']]`: the `Except.error` cases model the
`KeyError` raised on a missing `_cid` or an unknown endpoint path. -/
def titleOf (r : Dict) : Except String String :=
  match dictGet r "_cid" with
  | some (.str cid) =>
    match dictGet title_fields cid with
    | some f => .ok f
    | none => .error ("KeyError: " ++ cid)
  | some _ => .error "KeyError"
  | none => .error "KeyError: _cid"

/-! ### Scalar leaves and their path-joined keys (the specification side of
the flatten coverage claim) -/

mutual
/-- The scalar leaves below a value rooted at key `k`, each under its
`_`-joined compound key. -/
def valLeaves (k : String) : JVal → List (String × JVal)
  | .obj e => (entriesLeaves e).map (fun p => (k ++ "_" ++ p.1, p.2))
  | .arr l => (elemsLeaves 0 l).map (fun p => (k ++ "_" ++ p.1, p.2))
  | v => [(k, v)]
def entriesLeaves : List (String × JVal) → List (String × JVal)
  | [] => []
  | (k, v) :: t => valLeaves k v ++ entriesLeaves t
def elemsLeaves (i : Nat) : List JVal → List (String × JVal)
  | [] => []
  | v :: t => valLeaves (natStr i) v ++ elemsLeaves (i + 1) t
end

/-! ## Lemmas about the dict model -/

theorem dictGet_dictSet {α : Type} (d : List (String × α)) (k j : String) (v : α) :
    dictGet (dictSet d k v) j = if k = j then some v else dictGet d j := by
  induction d with
  | nil => simp [dictSet, dictGet]
  | cons p t ih =>
    obtain ⟨k', v'⟩ := p
    by_cases hk : k' = k
    · subst hk
      simp only [dictSet, if_pos rfl, dictGet]
      by_cases hj : k' = j <;> simp [hj]
    · simp only [dictSet, if_neg hk, dictGet]
      by_cases hj : k' = j
      · subst hj
        rw [if_neg (fun h : k = k' => hk h.symm)]
        simp
      · simp [hj, ih]

theorem dictGet_eq_none_iff {α : Type} (d : List (String × α)) (k : String) :
    dictGet d k = none ↔ ∀ v, (k, v) ∉ d := by
  induction d with
  | nil => simp [dictGet]
  | cons p t ih =>
    obtain ⟨k', v'⟩ := p
    by_cases hk : k' = k
    · subst hk
      constructor
      · intro h
        simp [dictGet] at h
      · intro h
        exact absurd (List.mem_cons_self _ _) (h v')
    · simp only [dictGet, if_neg hk, ih, List.mem_cons]
      constructor
      · intro h v hv
        rcases hv with hv | hv
        · exact hk (congrArg Prod.fst hv).symm
        · exact h v hv
      · intro h v hv
        exact h v (Or.inr hv)

theorem isSome_dictGet_of_mem {α : Type} {d : List (String × α)} {k : String} {v : α}
    (h : (k, v) ∈ d) : (dictGet d k).isSome := by
  cases hg : dictGet d k with
  | some w => rfl
  | none => exact absurd h ((dictGet_eq_none_iff d k).mp hg v)

theorem dictGet_dictUpdate_of_none {α : Type} (e : List (String × α)) :
    ∀ (d : List (String × α)) (k : String), dictGet e k = none →
      dictGet (dictUpdate d e) k = dictGet d k := by
  induction e with
  | nil => intro d k _; rfl
  | cons p t ih =>
    intro d k h
    obtain ⟨k', v'⟩ := p
    simp only [dictGet] at h
    by_cases hk : k' = k
    · simp [hk] at h
    · simp only [if_neg hk] at h
      show dictGet (dictUpdate (dictSet d k' v') t) k = dictGet d k
      rw [ih _ _ h, dictGet_dictSet, if_neg hk]

theorem isSome_dictGet_dictUpdate_left {α : Type} (e : List (String × α)) :
    ∀ (d : List (String × α)) (k : String), (dictGet d k).isSome →
      (dictGet (dictUpdate d e) k).isSome := by
  induction e with
  | nil => intro d k h; exact h
  | cons p t ih =>
    intro d k h
    show (dictGet (dictUpdate (dictSet d p.1 p.2) t) k).isSome
    apply ih
    rw [dictGet_dictSet]
    by_cases hk : p.1 = k <;> simp [hk, h]

theorem isSome_dictGet_dictUpdate_right {α : Type} (e : List (String × α)) :
    ∀ (d : List (String × α)) (k : String), (dictGet e k).isSome →
      (dictGet (dictUpdate d e) k).isSome := by
  induction e with
  | nil => intro d k h; simp [dictGet] at h
  | cons p t ih =>
    intro d k h
    obtain ⟨k', v'⟩ := p
    show (dictGet (dictUpdate (dictSet d k' v') t) k).isSome
    by_cases ht : (dictGet t k).isSome
    · exact ih _ _ ht
    · cases hg : dictGet t k with
      | some w => rw [hg] at ht; simp at ht
      | none =>
        rw [dictGet_dictUpdate_of_none t _ _ hg, dictGet_dictSet]
        simp only [dictGet] at h
        by_cases hk : k' = k
        · simp [hk]
        · rw [if_neg hk] at h
          rw [hg] at h
          simp at h

theorem mem_dictSet {α : Type} (d : List (String × α)) (k : String) (v : α) :
    ∀ q ∈ dictSet d k v, q ∈ d ∨ q = (k, v) := by
  induction d with
  | nil => intro q hq; simp [dictSet] at hq; simp [hq]
  | cons p t ih =>
    intro q hq
    obtain ⟨k', v'⟩ := p
    by_cases hk : k' = k
    · simp only [dictSet, if_pos hk, List.mem_cons] at hq
      rcases hq with hq | hq
      · right; rw [hq, hk]
      · left; exact List.mem_cons_of_mem _ hq
    · simp only [dictSet, if_neg hk, List.mem_cons] at hq
      rcases hq with hq | hq
      · left; exact hq ▸ List.mem_cons_self _ _
      · rcases ih q hq with h | h
        · left; exact List.mem_cons_of_mem _ h
        · right; exact h

theorem mem_dictUpdate {α : Type} (e : List (String × α)) :
    ∀ (d : List (String × α)) (q), q ∈ dictUpdate d e → q ∈ d ∨ q ∈ e := by
  induction e with
  | nil => intro d q hq; exact Or.inl hq
  | cons p t ih =>
    intro d q hq
    rcases ih _ _ hq with h | h
    · rcases mem_dictSet _ _ _ _ h with h' | h'
      · exact Or.inl h'
      · right; rw [h']; exact List.mem_cons_self _ _
    · exact Or.inr (List.mem_cons_of_mem _ h)

theorem nodupKeys_dictSet {α : Type} (d : List (String × α)) (k : String) (v : α)
    (h : nodupKeys d) : nodupKeys (dictSet d k v) := by
  induction d with
  | nil => simp [dictSet, nodupKeys]
  | cons p t ih =>
    obtain ⟨k', v'⟩ := p
    rw [nodupKeys, List.pairwise_cons] at h
    obtain ⟨hhead, htail⟩ := h
    by_cases hk : k' = k
    · rw [dictSet, if_pos hk, nodupKeys, List.pairwise_cons]
      exact ⟨hhead, htail⟩
    · rw [dictSet, if_neg hk, nodupKeys, List.pairwise_cons]
      refine ⟨?_, ih htail⟩
      intro q hq
      rcases mem_dictSet _ _ _ _ hq with h' | h'
      · exact hhead q h'
      · rw [h']; exact hk

theorem nodupKeys_dictUpdate {α : Type} (e : List (String × α)) :
    ∀ d : List (String × α), nodupKeys d → nodupKeys (dictUpdate d e) := by
  induction e with
  | nil => intro d h; exact h
  | cons p t ih =>
    intro d h
    exact ih _ (nodupKeys_dictSet _ _ _ h)

theorem dictSet_eq_append {α : Type} (d : List (String × α)) (k : String) (v : α)
    (h : dictGet d k = none) : dictSet d k v = d ++ [(k, v)] := by
  induction d with
  | nil => rfl
  | cons p t ih =>
    obtain ⟨k', v'⟩ := p
    simp only [dictGet] at h
    by_cases hk : k' = k
    · simp [hk] at h
    · rw [if_neg hk] at h
      simp only [dictSet, if_neg hk, List.cons_append, List.cons.injEq, true_and]
      exact ih h

theorem dictUpdate_eq_append {α : Type} (e : List (String × α)) :
    ∀ d : List (String × α), nodupKeys (d ++ e) → dictUpdate d e = d ++ e := by
  induction e with
  | nil => intro d _; simp [dictUpdate]
  | cons p t ih =>
    intro d h
    obtain ⟨k, v⟩ := p
    have hnone : dictGet d k = none := by
      rw [dictGet_eq_none_iff]
      intro w hw
      rw [nodupKeys] at h
      have := (List.pairwise_append.mp h).2.2 (k, w) hw (k, v) (List.mem_cons_self _ _)
      exact this rfl
    show dictUpdate (dictSet d k v) t = d ++ (k, v) :: t
    rw [dictSet_eq_append _ _ _ hnone, ih _ (by simpa using h)]
    simp

theorem dictUpdate_nil_eq {α : Type} (e : List (String × α)) (h : nodupKeys e) :
    dictUpdate [] e = e :=
  dictUpdate_eq_append e [] h

/-! ## Depth bounds and totality of the flattener -/

theorem val_depth_le_of_mem {d : Dict} {k : String} {v : JVal} (h : (k, v) ∈ d) :
    val_depth v ≤ entries_depth d := by
  induction d with
  | nil => simp at h
  | cons p t ih =>
    obtain ⟨k', v'⟩ := p
    rcases List.mem_cons.mp h with h' | h'
    · obtain ⟨_, rfl⟩ := Prod.mk.injEq .. ▸ h'
      injection h' with h1 h2
      rw [h2, entries_depth]
      exact Nat.le_max_left _ _
    · exact le_trans (ih h') (by rw [entries_depth]; exact Nat.le_max_right _ _)

theorem entries_depth_listToDictFrom (l : List JVal) :
    ∀ i : Nat, entries_depth (listToDictFrom i l) = elems_depth l := by
  induction l with
  | nil => intro i; rfl
  | cons v t ih =>
    intro i
    rw [listToDictFrom, entries_depth, elems_depth, ih]

theorem subDictsOf_depth {d : Dict} {k : String} {s : Dict}
    (h : (k, s) ∈ subDictsOf d) : entries_depth s < entries_depth d := by
  rw [subDictsOf, objEntries, arrEntries] at h
  rcases List.mem_append.mp h with h' | h' <;>
    obtain ⟨p, hp, he⟩ := List.mem_filterMap.mp h'
  · obtain ⟨k', v'⟩ := p
    match hv : v' with
    | .obj e =>
      simp only [hv] at he
      injection he with h1
      injection h1 with hk hs
      subst hk; subst hs
      have := val_depth_le_of_mem hp
      rw [val_depth] at this
      omega
    | .str _ | .num _ | .bool _ | .null | .arr _ => simp [hv] at he
  · obtain ⟨k', v'⟩ := p
    match hv : v' with
    | .arr l =>
      simp only [hv] at he
      injection he with h1
      injection h1 with hk hs
      subst hk; subst hs
      have := val_depth_le_of_mem hp
      rw [val_depth] at this
      rw [listToDict, entries_depth_listToDictFrom]
      omega
    | .str _ | .num _ | .bool _ | .null | .obj _ => simp [hv] at he


/-- Collapse the `foldlM` inside `flattenF` once every recursive call is known
to succeed. -/
theorem flattenF_foldlM_eq (fuel : Nat) (l : List (String × Dict)) :
    ∀ init : Dict, (∀ p ∈ l, flattenF fuel p.2 = some (flatten_dict p.2)) →
      (l.foldlM
        (fun acc p => (flattenF fuel p.2).map (fun f => dictUpdate acc (rekey p.1 f)))
        init : Option Dict)
      = some (l.foldl
          (fun acc p => dictUpdate acc (rekey p.1 (flatten_dict p.2))) init) := by
  induction l with
  | nil =>
    intro init _
    rfl
  | cons p t ih =>
    intro init h
    have hp : flattenF fuel p.2 = some (flatten_dict p.2) := h p (List.mem_cons_self _ _)
    have ht : ∀ q ∈ t, flattenF fuel q.2 = some (flatten_dict q.2) :=
      fun q hq => h q (List.mem_cons_of_mem _ hq)
    rw [List.foldlM_cons, List.foldl_cons]
    simp only [hp, Option.map_some']
    exact ih _ ht

/-- Any fuel strictly above the depth computes the flattening: the recursion
always terminates on a finite tree, and the bound `entries_depth d + 1` used
in `flatten_dict` is sufficient. -/
theorem flattenF_complete :
    ∀ (k : Nat) (d : Dict) (n : Nat), entries_depth d = k → entries_depth d < n →
      flattenF n d = some (flatten_dict d) := by
  intro k
  induction k using Nat.strong_induction_on with
  | _ k ih =>
    intro d n hk hn
    obtain ⟨m, rfl⟩ : ∃ m, n = m + 1 := ⟨n - 1, by omega⟩
    have hsub : ∀ p ∈ subDictsOf d, flattenF m p.2 = some (flatten_dict p.2) := by
      intro p hp
      obtain ⟨pk, ps⟩ := p
      have hd := subDictsOf_depth hp
      exact ih (entries_depth ps) (by omega) ps m rfl (by omega)
    have hsub' : ∀ p ∈ subDictsOf d,
        flattenF (entries_depth d) p.2 = some (flatten_dict p.2) := by
      intro p hp
      obtain ⟨pk, ps⟩ := p
      have hd := subDictsOf_depth hp
      exact ih (entries_depth ps) (by omega) ps _ rfl (by omega)
    rw [flattenF, flattenF_foldlM_eq m (subDictsOf d) _ hsub]
    rw [flatten_dict, flattenF, flattenF_foldlM_eq _ (subDictsOf d) _ hsub']
    rfl

/-- The recursion equation of `flatten_dict`, as written in the source:
scalars first, then each sub-dictionary flattened, re-keyed and merged. -/
theorem flatten_dict_unfold (d : Dict) :
    flatten_dict d =
      (subDictsOf d).foldl
        (fun acc p => dictUpdate acc (rekey p.1 (flatten_dict p.2)))
        (dictUpdate ([] : Dict) (scalarsOf d)) := by
  have hsub : ∀ p ∈ subDictsOf d,
      flattenF (entries_depth d) p.2 = some (flatten_dict p.2) := by
    intro p hp
    obtain ⟨pk, ps⟩ := p
    have hd := subDictsOf_depth hp
    exact flattenF_complete (entries_depth ps) ps _ rfl (by omega)
  rw [flatten_dict, flattenF, flattenF_foldlM_eq _ (subDictsOf d) _ hsub]
  rfl

/-! ## Key preservation through the flattener's update chain -/

theorem isSome_dictGet_foldl_left {β : Type} (l : List β) (g : β → Dict) :
    ∀ (init : Dict) (k : String), (dictGet init k).isSome →
      (dictGet (l.foldl (fun acc p => dictUpdate acc (g p)) init) k).isSome := by
  induction l with
  | nil => intro init k h; exact h
  | cons p t ih =>
    intro init k h
    exact ih _ _ (isSome_dictGet_dictUpdate_left _ _ _ h)

theorem isSome_dictGet_foldl_mem {β : Type} (l : List β) (g : β → Dict) :
    ∀ (init : Dict) (k : String) (p : β), p ∈ l → (dictGet (g p) k).isSome →
      (dictGet (l.foldl (fun acc p => dictUpdate acc (g p)) init) k).isSome := by
  induction l with
  | nil => intro init k p h _; simp at h
  | cons q t ih =>
    intro init k p hp h
    rcases List.mem_cons.mp hp with h' | h'
    · subst h'
      exact isSome_dictGet_foldl_left t g _ _ (isSome_dictGet_dictUpdate_right _ _ _ h)
    · exact ih _ _ _ h' h

theorem mem_foldl_dictUpdate {β : Type} (l : List β) (g : β → Dict) :
    ∀ (init : Dict) (q : String × JVal),
      q ∈ l.foldl (fun acc p => dictUpdate acc (g p)) init →
      q ∈ init ∨ ∃ p ∈ l, q ∈ g p := by
  induction l with
  | nil => intro init q h; exact Or.inl h
  | cons p t ih =>
    intro init q h
    rcases ih _ _ h with h' | ⟨p', hp', hq⟩
    · rcases mem_dictUpdate _ _ _ h' with h'' | h''
      · exact Or.inl h''
      · exact Or.inr ⟨p, List.mem_cons_self _ _, h''⟩
    · exact Or.inr ⟨p', List.mem_cons_of_mem _ hp', hq⟩

theorem nodupKeys_foldl_dictUpdate {β : Type} (l : List β) (g : β → Dict) :
    ∀ init : Dict, nodupKeys init →
      nodupKeys (l.foldl (fun acc p => dictUpdate acc (g p)) init) := by
  induction l with
  | nil => intro init h; exact h
  | cons p t ih =>
    intro init h
    exact ih _ (nodupKeys_dictUpdate _ _ h)

/-- The flattened output is a genuine dict: its keys are pairwise distinct. -/
theorem nodupKeys_flatten_dict (d : Dict) : nodupKeys (flatten_dict d) := by
  rw [flatten_dict_unfold]
  exact nodupKeys_foldl_dictUpdate _ _ _
    (nodupKeys_dictUpdate _ _ List.Pairwise.nil)

/-- Lookup after an `update` by a dict without duplicate keys: the update's
binding wins where present, the base is untouched elsewhere. -/
theorem dictGet_dictUpdate_nodup {α : Type} (e : List (String × α)) :
    ∀ (d : List (String × α)) (k : String), nodupKeys e →
      dictGet (dictUpdate d e) k =
        match dictGet e k with
        | some v => some v
        | none => dictGet d k := by
  induction e with
  | nil => intro d k _; rfl
  | cons p t ih =>
    intro d k hn
    obtain ⟨k0, v0⟩ := p
    rw [nodupKeys, List.pairwise_cons] at hn
    obtain ⟨hhead, htail⟩ := hn
    show dictGet (dictUpdate (dictSet d k0 v0) t) k = _
    rw [ih _ _ htail]
    by_cases hk : k0 = k
    · subst hk
      have htn : dictGet t k0 = none := by
        rw [dictGet_eq_none_iff]
        intro w hw
        exact absurd rfl (hhead (k0, w) hw)
      rw [htn]
      simp only [dictGet, if_pos rfl]
      rw [dictGet_dictSet, if_pos rfl]
      simp
    · simp only [dictGet, if_neg hk]
      cases dictGet t k with
      | some w => rfl
      | none => rw [dictGet_dictSet, if_neg hk]

/-! ## Computing the flattener's entry partition -/

theorem scalarsOf_cons_scalar {v : JVal} (h : isComposite v = false) (k : String) (d : Dict) :
    scalarsOf ((k, v) :: d) = (k, v) :: scalarsOf d := by
  simp [scalarsOf, List.filter_cons, h]

theorem scalarsOf_cons_comp {v : JVal} (h : isComposite v = true) (k : String) (d : Dict) :
    scalarsOf ((k, v) :: d) = scalarsOf d := by
  simp [scalarsOf, List.filter_cons, h]

theorem subDictsOf_cons_scalar {v : JVal} (h : isComposite v = false) (k : String) (d : Dict) :
    subDictsOf ((k, v) :: d) = subDictsOf d := by
  cases v <;>
    simp_all [subDictsOf, objEntries, arrEntries, List.filterMap_cons, isComposite]

theorem subDictsOf_cons_obj (k : String) (e : List (String × JVal)) (d : Dict) :
    subDictsOf ((k, JVal.obj e) :: d) = (k, e) :: subDictsOf d := by
  simp [subDictsOf, objEntries, arrEntries, List.filterMap_cons]

theorem subDictsOf_cons_arr (k : String) (l : List JVal) (d : Dict) :
    subDictsOf ((k, JVal.arr l) :: d) =
      objEntries d ++ (k, listToDict l) :: arrEntries d := by
  simp [subDictsOf, objEntries, arrEntries, List.filterMap_cons]

theorem scalarsOf_eq_self {d : Dict} (h : ∀ p ∈ d, isComposite p.2 = false) :
    scalarsOf d = d := by
  rw [scalarsOf, List.filter_eq_self]
  intro p hp
  simp [h p hp]

theorem subDictsOf_eq_nil {d : Dict} (h : ∀ p ∈ d, isComposite p.2 = false) :
    subDictsOf d = [] := by
  rw [subDictsOf, objEntries, arrEntries, List.append_eq_nil]
  constructor <;>
  · rw [List.filterMap_eq_nil_iff]
    intro p hp
    have hs := h p hp
    obtain ⟨k, v⟩ := p
    cases v <;> simp_all [isComposite]

/-- Flattening a dict whose values are all scalars returns it unchanged. -/
theorem flatten_dict_of_scalars (d : Dict) (h1 : ∀ p ∈ d, isComposite p.2 = false)
    (h2 : nodupKeys d) : flatten_dict d = d := by
  rw [flatten_dict_unfold, subDictsOf_eq_nil h1, scalarsOf_eq_self h1]
  simp only [List.foldl_nil]
  exact dictUpdate_nil_eq d h2

/-! ## Scalar leaves: decomposition lemmas -/

theorem valLeaves_scalar (v : JVal) (h : isComposite v = false) (k : String) :
    valLeaves k v = [(k, v)] := by
  cases v <;> simp_all [valLeaves, isComposite]

theorem mem_entriesLeaves_iff (d : Dict) (q : String × JVal) :
    q ∈ entriesLeaves d ↔ ∃ p ∈ d, q ∈ valLeaves p.1 p.2 := by
  induction d with
  | nil => simp [entriesLeaves]
  | cons p t ih =>
    obtain ⟨k, v⟩ := p
    rw [entriesLeaves, List.mem_append, ih]
    constructor
    · intro h
      rcases h with h | ⟨p', hp', hq⟩
      · exact ⟨(k, v), List.mem_cons_self _ _, h⟩
      · exact ⟨p', List.mem_cons_of_mem _ hp', hq⟩
    · intro ⟨p', hp', hq⟩
      rcases List.mem_cons.mp hp' with h' | h'
      · left; rw [h'] at hq; exact hq
      · right; exact ⟨p', h', hq⟩

theorem entriesLeaves_listToDictFrom (l : List JVal) :
    ∀ i : Nat, entriesLeaves (listToDictFrom i l) = elemsLeaves i l := by
  induction l with
  | nil => intro i; rfl
  | cons v t ih =>
    intro i
    rw [listToDictFrom, entriesLeaves, elemsLeaves, ih]

theorem mem_elemsLeaves (l : List JVal) :
    ∀ (i : Nat) (q : String × JVal), q ∈ elemsLeaves i l →
      ∃ v ∈ l, ∃ j : Nat, q ∈ valLeaves (natStr (i + j)) v := by
  induction l with
  | nil => intro i q h; simp [elemsLeaves] at h
  | cons v t ih =>
    intro i q h
    rw [elemsLeaves, List.mem_append] at h
    rcases h with h | h
    · exact ⟨v, List.mem_cons_self _ _, 0, by simpa using h⟩
    · obtain ⟨v', hv', j, hq⟩ := ih (i + 1) q h
      exact ⟨v', List.mem_cons_of_mem _ hv', j + 1, by
        have : i + 1 + j = i + (j + 1) := by omega
        rwa [this] at hq⟩

theorem val_depth_le_of_mem_elems {l : List JVal} {v : JVal} (h : v ∈ l) :
    val_depth v ≤ elems_depth l := by
  induction l with
  | nil => simp at h
  | cons w t ih =>
    rcases List.mem_cons.mp h with h' | h'
    · rw [h', elems_depth]; exact Nat.le_max_left _ _
    · exact le_trans (ih h') (by rw [elems_depth]; exact Nat.le_max_right _ _)

/-- Every leaf of any value is a scalar. -/
theorem isComposite_valLeaves :
    ∀ (n : Nat) (v : JVal), val_depth v = n →
      ∀ (key : String) (q : String × JVal), q ∈ valLeaves key v →
        isComposite q.2 = false := by
  intro n
  induction n using Nat.strong_induction_on with
  | _ n ih =>
    intro v hn key q hq
    cases v with
    | str s =>
      rw [valLeaves_scalar (JVal.str s) rfl] at hq
      simp at hq
      rw [hq]
      rfl
    | num m =>
      rw [valLeaves_scalar (JVal.num m) rfl] at hq
      simp at hq
      rw [hq]
      rfl
    | bool b =>
      rw [valLeaves_scalar (JVal.bool b) rfl] at hq
      simp at hq
      rw [hq]
      rfl
    | null =>
      rw [valLeaves_scalar JVal.null rfl] at hq
      simp at hq
      rw [hq]
      rfl
    | obj e =>
      rw [valLeaves] at hq
      obtain ⟨q', hq', he⟩ := List.mem_map.mp hq
      obtain ⟨p, hp, hv⟩ := (mem_entriesLeaves_iff e q').mp hq'
      have hd : val_depth p.2 ≤ entries_depth e := by
        obtain ⟨pk, pv⟩ := p
        exact val_depth_le_of_mem hp
      have hlt : val_depth p.2 < n := by
        rw [← hn, val_depth]
        omega
      have := ih (val_depth p.2) hlt p.2 rfl p.1 q' hv
      rw [← he] at *
      exact this
    | arr l =>
      rw [valLeaves] at hq
      obtain ⟨q', hq', he⟩ := List.mem_map.mp hq
      obtain ⟨v', hv', j, hvj⟩ := mem_elemsLeaves l 0 q' hq'
      have hd : val_depth v' ≤ elems_depth l := val_depth_le_of_mem_elems hv'
      have hlt : val_depth v' < n := by
        rw [← hn, val_depth]
        omega
      have := ih (val_depth v') hlt v' rfl _ q' hvj
      rw [← he] at *
      exact this

/-- Every leaf of any dict is a scalar. -/
theorem isComposite_entriesLeaves (d : Dict) (q : String × JVal)
    (h : q ∈ entriesLeaves d) : isComposite q.2 = false := by
  obtain ⟨p, hp, hq⟩ := (mem_entriesLeaves_iff d q).mp h
  exact isComposite_valLeaves (val_depth p.2) p.2 rfl p.1 q hq

theorem isSome_dictGet_rekey (key : String) (f : Dict) :
    ∀ j : String, (dictGet f j).isSome →
      (dictGet (rekey key f) (key ++ "_" ++ j)).isSome := by
  induction f with
  | nil => intro j h; simp [dictGet] at h
  | cons p t ih =>
    intro j h
    obtain ⟨a, w⟩ := p
    show (dictGet ((key ++ "_" ++ a, w) :: rekey key t) (key ++ "_" ++ j)).isSome
    by_cases heq : key ++ "_" ++ a = key ++ "_" ++ j
    · rw [dictGet, if_pos heq]
      rfl
    · rw [dictGet, if_neg heq]
      apply ih
      have ha : a ≠ j := fun h' => heq (by rw [h'])
      rw [dictGet, if_neg ha] at h
      exact h

theorem mem_subDictsOf {d : Dict} {k : String} {s : Dict} (h : (k, s) ∈ subDictsOf d) :
    (k, JVal.obj s) ∈ d ∨ ∃ l, (k, JVal.arr l) ∈ d ∧ s = listToDict l := by
  rw [subDictsOf, objEntries, arrEntries] at h
  rcases List.mem_append.mp h with h' | h' <;>
    obtain ⟨p, hp, he⟩ := List.mem_filterMap.mp h' <;>
    obtain ⟨k', v'⟩ := p
  · cases v' with
    | obj e =>
      simp only at he
      injection he with h1
      injection h1 with hk hs
      subst hk; subst hs
      exact Or.inl hp
    | str _ | num _ | bool _ | null | arr _ => simp at he
  · cases v' with
    | arr l =>
      simp only at he
      injection he with h1
      injection h1 with hk hs
      subst hk; subst hs
      exact Or.inr ⟨l, hp, rfl⟩
    | str _ | num _ | bool _ | null | obj _ => simp at he

theorem mem_subDictsOf_of_obj {d : Dict} {k : String} {e : List (String × JVal)}
    (h : (k, JVal.obj e) ∈ d) : (k, e) ∈ subDictsOf d := by
  rw [subDictsOf, objEntries, arrEntries]
  exact List.mem_append.mpr (Or.inl (List.mem_filterMap.mpr ⟨(k, JVal.obj e), h, rfl⟩))

theorem mem_subDictsOf_of_arr {d : Dict} {k : String} {l : List JVal}
    (h : (k, JVal.arr l) ∈ d) : (k, listToDict l) ∈ subDictsOf d := by
  rw [subDictsOf, objEntries, arrEntries]
  exact List.mem_append.mpr (Or.inr (List.mem_filterMap.mpr ⟨(k, JVal.arr l), h, rfl⟩))

/-- Key coverage: every leaf's `_`-joined compound key is bound in the
flattened output. -/
theorem flatten_covers :
    ∀ (n : Nat) (d : Dict), entries_depth d = n →
      ∀ q ∈ entriesLeaves d, (dictGet (flatten_dict d) q.1).isSome := by
  intro n
  induction n using Nat.strong_induction_on with
  | _ n ih =>
    intro d hn q hq
    rw [flatten_dict_unfold]
    obtain ⟨p, hp, hql⟩ := (mem_entriesLeaves_iff d q).mp hq
    obtain ⟨k, v⟩ := p
    cases hc : isComposite v with
    | false =>
      rw [valLeaves_scalar v hc] at hql
      simp at hql
      subst hql
      apply isSome_dictGet_foldl_left
      apply isSome_dictGet_dictUpdate_right
      apply isSome_dictGet_of_mem (v := v)
      rw [scalarsOf, List.mem_filter]
      exact ⟨hp, by simp [hc]⟩
    | true =>
      cases v with
      | str _ | num _ | bool _ | null => simp [isComposite] at hc
      | obj e =>
        rw [valLeaves] at hql
        obtain ⟨q', hq', hqe⟩ := List.mem_map.mp hql
        have hdep : entries_depth e < n := by
          have := val_depth_le_of_mem hp
          rw [val_depth] at this
          omega
        have hsome := ih (entries_depth e) hdep e rfl q' hq'
        apply isSome_dictGet_foldl_mem _ _ _ _ (k, e) (mem_subDictsOf_of_obj hp)
        rw [← hqe]
        exact isSome_dictGet_rekey k _ q'.1 hsome
      | arr l =>
        rw [valLeaves] at hql
        obtain ⟨q', hq', hqe⟩ := List.mem_map.mp hql
        rw [← entriesLeaves_listToDictFrom l 0] at hq'
        have hdep : entries_depth (listToDict l) < n := by
          have := val_depth_le_of_mem hp
          rw [val_depth] at this
          rw [listToDict, entries_depth_listToDictFrom]
          omega
        have hsome := ih (entries_depth (listToDict l)) hdep (listToDict l) rfl q' hq'
        apply isSome_dictGet_foldl_mem _ _ _ _ (k, listToDict l) (mem_subDictsOf_of_arr hp)
        rw [← hqe]
        exact isSome_dictGet_rekey k _ q'.1 hsome

/-- Provenance: every binding of the flattened output is a leaf of the input
under its compound key. -/
theorem flatten_sound :
    ∀ (n : Nat) (d : Dict), entries_depth d = n →
      ∀ q ∈ flatten_dict d, q ∈ entriesLeaves d := by
  intro n
  induction n using Nat.strong_induction_on with
  | _ n ih =>
    intro d hn q hq
    rw [flatten_dict_unfold] at hq
    rcases mem_foldl_dictUpdate _ _ _ _ hq with h | ⟨p, hp, hqp⟩
    · rcases mem_dictUpdate _ _ _ h with h' | h'
      · simp at h'
      · rw [scalarsOf, List.mem_filter] at h'
        obtain ⟨hmem, hsc⟩ := h'
        rw [mem_entriesLeaves_iff]
        refine ⟨q, hmem, ?_⟩
        rw [valLeaves_scalar q.2 (by simpa using hsc) q.1]
        simp
    · obtain ⟨pk, ps⟩ := p
      rw [rekey] at hqp
      obtain ⟨q', hq', hqe⟩ := List.mem_map.mp hqp
      have hdep : entries_depth ps < n := by
        have := subDictsOf_depth hp
        omega
      have hleaf := ih (entries_depth ps) hdep ps rfl q' hq'
      rcases mem_subDictsOf hp with hobj | ⟨l, harr, hlist⟩
      · rw [mem_entriesLeaves_iff]
        refine ⟨(pk, JVal.obj ps), hobj, ?_⟩
        rw [valLeaves]
        rw [← hqe]
        exact List.mem_map.mpr ⟨q', hleaf, rfl⟩
      · rw [mem_entriesLeaves_iff]
        refine ⟨(pk, JVal.arr l), harr, ?_⟩
        rw [valLeaves]
        rw [← hqe]
        refine List.mem_map.mpr ⟨q', ?_, rfl⟩
        rw [← entriesLeaves_listToDictFrom l 0]
        rw [hlist] at hleaf
        exact hleaf

/-! ## Injectivity of the decimal rendering (distinctness of `groupN` keys) -/

/-- Decimal decoding of a digit character. -/
def decChar (c : Char) : Nat := c.toNat - 48

theorem decChar_digChar (n : Nat) (h : n < 10) : decChar (digChar n) = n := by
  interval_cases n <;> decide

theorem natStrCore_fuel :
    ∀ (k n f : Nat), n = k → n < f → natStrCore f n = natStrCore (n + 1) n := by
  intro k
  induction k using Nat.strong_induction_on with
  | _ k ih =>
    intro n f hk hf
    obtain ⟨g, rfl⟩ : ∃ g, f = g + 1 := ⟨f - 1, by omega⟩
    by_cases h10 : n < 10
    · rw [natStrCore, if_pos h10, natStrCore, if_pos h10]
    · have hdiv : n / 10 < n := Nat.div_lt_self (by omega) (by omega)
      have hL : natStrCore (g + 1) n = natStrCore g (n / 10) ++ [digChar (n % 10)] := by
        rw [natStrCore, if_neg h10]
      have hR : natStrCore (n + 1) n = natStrCore n (n / 10) ++ [digChar (n % 10)] := by
        rw [natStrCore, if_neg h10]
      rw [hL, hR,
        ih (n / 10) (by omega) (n / 10) g rfl (by omega),
        ih (n / 10) (by omega) (n / 10) n rfl (by omega)]

theorem decodeDec_natStrCore :
    ∀ (k n : Nat), n = k → ∀ a : Nat,
      (natStrCore (n + 1) n).foldl (fun x c => x * 10 + decChar c) a
        = a * 10 ^ (natStrCore (n + 1) n).length + n := by
  intro k
  induction k using Nat.strong_induction_on with
  | _ k ih =>
    intro n hk a
    by_cases h10 : n < 10
    · rw [natStrCore, if_pos h10]
      simp [decChar_digChar n h10]
    · have hdiv : n / 10 < n := Nat.div_lt_self (by omega) (by omega)
      have hR : natStrCore (n + 1) n
          = natStrCore (n / 10 + 1) (n / 10) ++ [digChar (n % 10)] := by
        rw [natStrCore, if_neg h10, natStrCore_fuel (n / 10) (n / 10) n rfl (by omega)]
      rw [hR, List.foldl_append,
        ih (n / 10) (by omega) (n / 10) rfl a]
      have hmod : decChar (digChar (n % 10)) = n % 10 :=
        decChar_digChar _ (Nat.mod_lt _ (by omega))
      simp only [List.foldl_cons, List.foldl_nil, List.length_append, List.length_cons,
        List.length_nil, hmod]
      have hdm : n / 10 * 10 + n % 10 = n := by
        have := Nat.div_add_mod n 10
        omega
      have hpow : 10 ^ ((natStrCore (n / 10 + 1) (n / 10)).length + (0 + 1))
          = 10 ^ (natStrCore (n / 10 + 1) (n / 10)).length * 10 := by
        rw [pow_succ]
      rw [hpow]
      set A := 10 ^ (natStrCore (n / 10 + 1) (n / 10)).length with hA
      set B := a * A with hB
      have : a * (A * 10) = B * 10 := by rw [hB]; ring
      rw [this]
      omega

theorem natStr_injective : ∀ m n : Nat, natStr m = natStr n → m = n := by
  intro m n h
  have hdata : natStrCore (m + 1) m = natStrCore (n + 1) n := congrArg String.data h
  have h1 := decodeDec_natStrCore m m rfl 0
  have h2 := decodeDec_natStrCore n n rfl 0
  rw [hdata] at h1
  rw [h1] at h2
  omega

theorem groupKey_inj {i j : Nat} (h : "group" ++ natStr i = "group" ++ natStr j) :
    i = j := by
  apply natStr_injective
  have hd : ("group" ++ natStr i).data = ("group" ++ natStr j).data :=
    congrArg String.data h
  rw [String.data_append, String.data_append] at hd
  exact congrArg String.mk (List.append_cancel_left hd)

/-! ## Group-variable injection -/

theorem dictGet_addGroupsFrom_of_ne (t : List (Option String)) :
    ∀ (i : Nat) (r : Dict) (k : String),
      (∀ j : Nat, j < t.length → k ≠ "group" ++ natStr (i + j + 1)) →
      dictGet (addGroupsFrom i r t) k = dictGet r k := by
  induction t with
  | nil => intro i r k _; rfl
  | cons g t ih =>
    intro i r k hk
    show dictGet (addGroupsFrom (i + 1) (dictSet r ("group" ++ natStr (i + 1)) (optToJVal g)) t) k
      = dictGet r k
    rw [ih (i + 1) _ k (fun j hj => by
      have := hk (j + 1) (by simpa using Nat.succ_lt_succ hj)
      have harith : i + (j + 1) + 1 = i + 1 + j + 1 := by omega
      rwa [harith] at this)]
    rw [dictGet_dictSet]
    rw [if_neg]
    intro heq
    exact hk 0 (by simp) heq.symm

theorem dictGet_addGroupsFrom (t : List (Option String)) :
    ∀ (i : Nat) (r : Dict) (j : Nat) (g : Option String), t[j]? = some g →
      dictGet (addGroupsFrom i r t) ("group" ++ natStr (i + j + 1))
        = some (optToJVal g) := by
  induction t with
  | nil => intro i r j g h; simp at h
  | cons g0 t ih =>
    intro i r j g h
    show dictGet (addGroupsFrom (i + 1)
        (dictSet r ("group" ++ natStr (i + 1)) (optToJVal g0)) t)
        ("group" ++ natStr (i + j + 1)) = some (optToJVal g)
    cases j with
    | zero =>
      simp only [List.getElem?_cons_zero, Option.some.injEq] at h
      subst h
      rw [dictGet_addGroupsFrom_of_ne t (i + 1) _ _ (fun j' hj' heq => by
        have := groupKey_inj heq
        omega)]
      rw [dictGet_dictSet, if_pos rfl]
    | succ j' =>
      simp only [List.getElem?_cons_succ] at h
      have harith : i + (j' + 1) + 1 = i + 1 + j' + 1 := by omega
      rw [harith]
      exact ih (i + 1) _ j' g h

/-! ## The query filter: splitting and filtering -/

theorem splitEqAux_spec :
    ∀ l : List Char, '=' ∈ l →
      ∃ k v : List Char, splitEqAux l = some (k, v) ∧ '=' ∉ k ∧ l = k ++ '=' :: v := by
  intro l hl
  induction l with
  | nil => simp at hl
  | cons c t ih =>
    by_cases hc : c = '='
    · subst hc
      exact ⟨[], t, by rw [splitEqAux, if_pos rfl], by simp, rfl⟩
    · have ht : '=' ∈ t := by
        rcases List.mem_cons.mp hl with h | h
        · exact absurd h.symm hc
        · exact h
      obtain ⟨k, v, hs, hk, he⟩ := ih ht
      refine ⟨c :: k, v, ?_, ?_, ?_⟩
      · rw [splitEqAux, if_neg hc, hs]
        rfl
      · intro hmem
        rcases List.mem_cons.mp hmem with h | h
        · exact hc h.symm
        · exact hk h
      · rw [List.cons_append, ← he]

theorem exceptBind_ok {ε α β : Type} (a : α) (f : α → Except ε β) :
    (Except.ok a >>= f : Except ε β) = f a := rfl

theorem exceptBind_error {ε α β : Type} (e : ε) (f : α → Except ε β) :
    ((Except.error e : Except ε α) >>= f : Except ε β) = Except.error e := rfl

/-- `run_query` collapses to a filter-and-annotate pass when the filter splits
and every record carries the field as a string. -/
theorem run_query_eq_filterMap
    (search : String → String → Option (List (Option String)))
    (field regex : String) (results : List Dict) :
    ∀ acc : List Dict, (∀ r ∈ results, ∃ s, dictGet r field = some (JVal.str s)) →
      (results.foldlM (fun acc r =>
        match dictGet r field with
        | some (JVal.str s) =>
          match search regex s with
          | some gs => Except.ok (acc ++ [addGroupsFrom 0 r gs])
          | none => Except.ok acc
        | some _ => Except.error "TypeError"
        | none => Except.error "KeyError") acc : Except String (List Dict))
      = Except.ok (acc ++ results.filterMap (fun r =>
          match dictGet r field with
          | some (JVal.str s) => (search regex s).map (fun gs => addGroupsFrom 0 r gs)
          | _ => none)) := by
  induction results with
  | nil =>
    intro acc _
    simp only [List.foldlM, List.filterMap_nil, List.append_nil]
    rfl
  | cons r t ih =>
    intro acc h
    obtain ⟨s, hs⟩ := h r (List.mem_cons_self _ _)
    have ht : ∀ q ∈ t, ∃ s, dictGet q field = some (JVal.str s) :=
      fun q hq => h q (List.mem_cons_of_mem _ hq)
    rw [List.foldlM_cons, List.filterMap_cons]
    simp only [hs]
    cases hsr : search regex s with
    | some gs =>
      simp only [Option.map_some']
      rw [exceptBind_ok, ih _ ht]
      simp
    | none =>
      rw [exceptBind_ok, ih _ ht]
      simp

/-! ## The template engine: length preservation and the main loop -/

theorem subList_length (vars : Dict) (l : List JVal) :
    ∀ os : List JVal, subList vars l = Except.ok os → os.length = l.length := by
  induction l with
  | nil =>
    intro os h
    simp only [subList] at h
    injection h with h
    rw [← h]
  | cons v t ih =>
    intro os h
    rw [subList] at h
    cases hv : subVal vars v with
    | error e =>
      simp only [hv, exceptBind_error] at h
      exact Except.noConfusion h
    | ok v' =>
      cases ht : subList vars t with
      | error e =>
        simp only [hv, ht, exceptBind_ok, exceptBind_error] at h
        exact Except.noConfusion h
      | ok t' =>
        simp only [hv, ht, exceptBind_ok] at h
        injection h with h
        rw [← h, List.length_cons, ih t' ht]
        rfl

/-! ## Remaining helpers for the main-loop and empty-composite claims -/

theorem process_results_singleton (t : JVal) (vars : Dict) (r : Dict) :
    process_results t vars [r]
      = (subVal (merge_params vars r) t).map (addProcessed []) := by
  rw [process_results]
  cases h : subVal (merge_params vars r) t with
  | error e =>
    show (Except.map (addProcessed []) (subVal (merge_params vars r) t) >>= _ :
      Except String (List JVal)) = _
    rw [h]
    rfl
  | ok p =>
    show (Except.map (addProcessed []) (subVal (merge_params vars r) t) >>= _ :
      Except String (List JVal)) = _
    rw [h]
    rfl

/-! # The claims -/

/-- C1, counterexample: the claim says the static variable wins on a shared
key, but `merge_params` updates with the static variables first and then
overwrites them with the flattened record, so
`merge({"x": "static"}, {"x": "fromrecord"})` binds `x` to `"fromrecord"`,
not `"static"`. -/
theorem c1_counterexample :
    dictGet (merge_params [("x", JVal.str "static")] [("x", JVal.str "fromrecord")]) "x"
        = some (JVal.str "fromrecord") ∧
    dictGet (merge_params [("x", JVal.str "static")] [("x", JVal.str "fromrecord")]) "x"
        ≠ some (JVal.str "static") := by
  refine ⟨rfl, ?_⟩
  intro h
  have h1 : some (JVal.str "fromrecord") = some (JVal.str "static") := h
  injection h1 with h2
  injection h2 with h3
  exact absurd h3 (by decide)

/-- C1, amended: `merge(S, R)` contains every entry of `flatten(R)` and every
entry of `S`, and on a shared key the value from `flatten(R)` (the record) is
the one in the result: for every key, the merged value is the flattened
record's binding when present, and otherwise the static binding. -/
theorem c1_merge_precedence (s r : Dict) (hs : nodupKeys s) (k : String) :
    dictGet (merge_params s r) k
      = match dictGet (flatten_dict r) k with
        | some v => some v
        | none => dictGet s k := by
  rw [merge_params, dictGet_dictUpdate_nodup _ _ _ (nodupKeys_flatten_dict r),
    dictUpdate_nil_eq s hs]
  cases dictGet (flatten_dict r) k <;> rfl

/-- C1, witness: the amended precedence evaluated at the spec's own example. -/
theorem c1_merge_precedence_witness :
    nodupKeys [("x", JVal.str "static")] ∧
    dictGet (merge_params [("x", JVal.str "static")] [("x", JVal.str "fromrecord")]) "x"
      = some (JVal.str "fromrecord") :=
  ⟨by decide, by
    rw [c1_merge_precedence [("x", JVal.str "static")] [("x", JVal.str "fromrecord")]
      (by decide) "x"]
    rfl⟩

/-- C2: every scalar leaf of the input is reachable in the flattened output
under its `_`-joined compound key (sequences contributing decimal indices),
and every binding of the output is such a leaf — in particular no output
value is a mapping or a sequence. -/
theorem c2_flatten_coverage (d : Dict) :
    (∀ q ∈ entriesLeaves d, (dictGet (flatten_dict d) q.1).isSome) ∧
    (∀ q ∈ flatten_dict d, q ∈ entriesLeaves d ∧ isComposite q.2 = false) := by
  constructor
  · exact fun q hq => flatten_covers (entries_depth d) d rfl q hq
  · intro q hq
    have hl := flatten_sound (entries_depth d) d rfl q hq
    exact ⟨hl, isComposite_entriesLeaves d q hl⟩

/-- C2, witness: coverage evaluated on a concrete nested record. -/
theorem c2_flatten_coverage_witness :
    (dictGet (flatten_dict [("a", JVal.obj [("b", JVal.num 1)]), ("c", JVal.str "x")])
      "a_b").isSome :=
  (c2_flatten_coverage [("a", JVal.obj [("b", JVal.num 1)]), ("c", JVal.str "x")]).1
    ("a_b", JVal.num 1)
    (by
      show ("a_b", JVal.num 1) ∈ [("a_b", JVal.num 1), ("c", JVal.str "x")]
      exact List.mem_cons_self _ _)

/-- C3: when a nested path and a literal key collapse to the same flattened
key, the entry processed second wins: scalars are copied first, so the nested
dict's leaf (processed second) silently overwrites the literal scalar, and
exactly one binding remains. -/
theorem c3_flatten_collision (a b : String) (v1 v2 : JVal)
    (h1 : isComposite v1 = false) (h2 : isComposite v2 = false) :
    flatten_dict [(a, JVal.obj [(b, v1)]), (a ++ "_" ++ b, v2)]
      = [(a ++ "_" ++ b, v1)] := by
  rw [flatten_dict_unfold]
  rw [@scalarsOf_cons_comp (JVal.obj [(b, v1)]) rfl, scalarsOf_cons_scalar h2]
  rw [subDictsOf_cons_obj, subDictsOf_cons_scalar h2]
  show dictUpdate (dictUpdate [] [(a ++ "_" ++ b, v2)])
      (rekey a (flatten_dict [(b, v1)])) = _
  rw [flatten_dict_of_scalars [(b, v1)]
    (by
      intro p hp
      obtain rfl := List.mem_singleton.mp hp
      exact h1)
    (by simp [nodupKeys])]
  show dictSet (dictSet [] (a ++ "_" ++ b) v2) (a ++ "_" ++ b) v1 = _
  simp [dictSet]

/-- C3, witness: the spec's pinned example `flatten({"a": {"b": 1}, "a_b": 2})`
evaluates to `{"a_b": 1}`. -/
theorem c3_flatten_collision_witness :
    isComposite (JVal.num 1) = false ∧ isComposite (JVal.num 2) = false ∧
    flatten_dict [("a", JVal.obj [("b", JVal.num 1)]), ("a_b", JVal.num 2)]
      = [("a_b", JVal.num 1)] :=
  ⟨rfl, rfl, c3_flatten_collision "a" "b" (JVal.num 1) (JVal.num 2) rfl rfl⟩

/-- C4: flattening a mapping whose values are all scalars returns it
unchanged. -/
theorem c4_flatten_scalars_id (d : Dict) (h1 : ∀ p ∈ d, isComposite p.2 = false)
    (h2 : nodupKeys d) : flatten_dict d = d :=
  flatten_dict_of_scalars d h1 h2

/-- C4, witness: evaluated on a concrete two-entry scalar mapping. -/
theorem c4_flatten_scalars_id_witness :
    (∀ p ∈ ([("a", JVal.num 1), ("b", JVal.str "x")] : Dict), isComposite p.2 = false) ∧
    flatten_dict [("a", JVal.num 1), ("b", JVal.str "x")]
      = [("a", JVal.num 1), ("b", JVal.str "x")] :=
  ⟨by decide, c4_flatten_scalars_id [("a", JVal.num 1), ("b", JVal.str "x")]
    (by decide) (by decide)⟩

/-- C5: the flattener is total — on any finite tree, every fuel strictly
above the tree depth makes the recursion succeed, returning the flattening. -/
theorem c5_flatten_total (d : Dict) (n : Nat) (h : entries_depth d < n) :
    flattenF n d = some (flatten_dict d) :=
  flattenF_complete (entries_depth d) d n rfl h

/-- C5, witness: termination evaluated on a concrete nested record. -/
theorem c5_flatten_total_witness :
    entries_depth [("a", JVal.obj [("b", JVal.num 1)])] < 2 ∧
    flattenF 2 [("a", JVal.obj [("b", JVal.num 1)])]
      = some (flatten_dict [("a", JVal.obj [("b", JVal.num 1)])]) :=
  ⟨by decide, c5_flatten_total [("a", JVal.obj [("b", JVal.num 1)])] 2 (by decide)⟩

/-- C6: with the filter split into `field=regex`, `run_query` keeps exactly
the records on which the search matches (each record carrying the field as a
string), and each kept record gains one `groupN` entry per capture group,
1-based in capture order, bound to the captured text (`null` for a
non-participating group). -/
theorem c6_run_query_filter
    (search : String → String → Option (List (Option String)))
    (filt field regex : String) (results : List Dict)
    (hsplit : split_first_eq filt = some (field, regex))
    (hfield : ∀ r ∈ results, ∃ s, dictGet r field = some (JVal.str s)) :
    run_query search filt results
      = Except.ok (results.filterMap (fun r =>
          match dictGet r field with
          | some (JVal.str s) => (search regex s).map (fun gs => addGroupsFrom 0 r gs)
          | _ => none))
    ∧ ∀ (r : Dict) (gs : List (Option String)) (j : Nat) (g : Option String),
        gs[j]? = some g →
        dictGet (addGroupsFrom 0 r gs) ("group" ++ natStr (j + 1))
          = some (optToJVal g) := by
  constructor
  · simp only [run_query, hsplit]
    rw [run_query_eq_filterMap search field regex results [] hfield]
    rw [List.nil_append]
  · intro r gs j g hj
    have h := dictGet_addGroupsFrom gs 0 r j g hj
    have harith : (0 : Nat) + j + 1 = j + 1 := by omega
    rwa [harith] at h

/-- C6, witness: a two-record query with one match; the matching record gains
`group1 = "7"`, the other is dropped. -/
theorem c6_run_query_filter_witness :
    run_query (fun _ s => if s = "port 7" then some [some "7"] else none)
      "display_name=port"
      [[("display_name", JVal.str "port 7")], [("display_name", JVal.str "nope")]]
    = Except.ok [[("display_name", JVal.str "port 7"), ("group1", JVal.str "7")]] := by
  have h := c6_run_query_filter
    (fun _ s => if s = "port 7" then some [some "7"] else none)
    "display_name=port" "display_name" "port"
    [[("display_name", JVal.str "port 7")], [("display_name", JVal.str "nope")]]
    rfl
    (by
      intro r hr
      rcases List.mem_cons.mp hr with rfl | hr'
      · exact ⟨"port 7", rfl⟩
      · rcases List.mem_cons.mp hr' with rfl | hr''
        · exact ⟨"nope", rfl⟩
        · simp at hr'')
  rw [h.1]
  rfl

/-- C7: a substituted sequence is appended element-wise to the batch — one
query result yields as many records as the sequence has elements — while a
substituted mapping is appended as exactly one record. -/
theorem c7_list_template_expansion (s r : Dict) :
    (∀ (ts os : List JVal), subList (merge_params s r) ts = Except.ok os →
      process_results (JVal.arr ts) s [r] = Except.ok os ∧ os.length = ts.length) ∧
    (∀ (e : List (String × JVal)) (oe : JVal),
      subVal (merge_params s r) (JVal.obj e) = Except.ok oe →
      process_results (JVal.obj e) s [r] = Except.ok [oe]) := by
  constructor
  · intro ts os h
    refine ⟨?_, subList_length _ _ os h⟩
    rw [process_results_singleton]
    have harr : subVal (merge_params s r) (JVal.arr ts)
        = (subList (merge_params s r) ts).map JVal.arr := rfl
    rw [harr, h]
    rfl
  · intro e oe h
    have hobj : ∃ e', oe = JVal.obj e' := by
      have h' : (subEntries (merge_params s r) e).map JVal.obj = Except.ok oe := h
      cases hs : subEntries (merge_params s r) e with
      | error er =>
        rw [hs] at h'
        exact Except.noConfusion h'
      | ok e' =>
        rw [hs] at h'
        injection h' with h''
        exact ⟨e', h''.symm⟩
    obtain ⟨e', rfl⟩ := hobj
    rw [process_results_singleton, h]
    rfl

/-- C7, witness: a template root that is a sequence of two mappings yields,
from one query result, exactly the two substituted mappings. -/
theorem c7_list_template_expansion_witness :
    process_results
      (JVal.arr [JVal.obj [("a", JVal.str "{x}")], JVal.obj [("b", JVal.str "{x}")]])
      [] [[("x", JVal.str "7")]]
    = Except.ok [JVal.obj [("a", JVal.str "7")], JVal.obj [("b", JVal.str "7")]] :=
  ((c7_list_template_expansion [] [("x", JVal.str "7")]).1
    [JVal.obj [("a", JVal.str "{x}")], JVal.obj [("b", JVal.str "{x}")]]
    [JVal.obj [("a", JVal.str "7")], JVal.obj [("b", JVal.str "7")]] rfl).1

/-- C8: the title-field lookup is exactly the nine-entry table from the
source, and a record whose `_cid` is any other path makes the lookup fail
with the `KeyError`-equivalent instead of being handled. -/
theorem c8_title_fields (cid : String)
    (h : cid ∉ ["/graph", "/check_bundle", "/rule_set", "/worksheet", "/template",
      "/contact_group", "/account", "/broker", "/user"]) :
    dictGet title_fields "/graph" = some "title" ∧
    dictGet title_fields "/check_bundle" = some "display_name" ∧
    dictGet title_fields "/rule_set" = some "metric_name" ∧
    dictGet title_fields "/worksheet" = some "description" ∧
    dictGet title_fields "/template" = some "name" ∧
    dictGet title_fields "/contact_group" = some "name" ∧
    dictGet title_fields "/account" = some "name" ∧
    dictGet title_fields "/broker" = some "_name" ∧
    dictGet title_fields "/user" = some "email" ∧
    titleOf [("_cid", JVal.str cid)] = Except.error ("KeyError: " ++ cid) := by
  refine ⟨rfl, rfl, rfl, rfl, rfl, rfl, rfl, rfl, rfl, ?_⟩
  have hnone : dictGet title_fields cid = none := by
    rw [dictGet_eq_none_iff]
    intro w hw
    apply h
    fin_cases hw <;> simp
  have hstep : titleOf [("_cid", JVal.str cid)]
      = match dictGet title_fields cid with
        | some f => Except.ok f
        | none => Except.error ("KeyError: " ++ cid) := rfl
  rw [hstep, hnone]

/-- C8, witness: an unknown endpoint path fails the lookup. -/
theorem c8_title_fields_witness :
    titleOf [("_cid", JVal.str "/metric")] = Except.error ("KeyError: " ++ "/metric") :=
  (c8_title_fields "/metric" (by decide)).2.2.2.2.2.2.2.2.2

/-- C9: an entry whose value is an empty sequence or an empty mapping
contributes nothing to the flattened output: flattening with the entry is
the same as flattening without it. -/
theorem c9_flatten_drops_empty (pre post : Dict) (k : String) (v : JVal)
    (h : v = JVal.obj [] ∨ v = JVal.arr []) :
    flatten_dict (pre ++ (k, v) :: post) = flatten_dict (pre ++ post) := by
  rcases h with rfl | rfl
  · rw [flatten_dict_unfold, flatten_dict_unfold (pre ++ post)]
    have hsc : scalarsOf (pre ++ (k, JVal.obj []) :: post) = scalarsOf (pre ++ post) := by
      simp [scalarsOf, List.filter_append, List.filter_cons, isComposite]
    have hsub : subDictsOf (pre ++ (k, JVal.obj []) :: post)
        = (objEntries pre ++ (k, ([] : Dict)) :: objEntries post)
          ++ (arrEntries pre ++ arrEntries post) := by
      simp [subDictsOf, objEntries, arrEntries, List.filterMap_append, List.filterMap_cons]
    have hsub2 : subDictsOf (pre ++ post)
        = (objEntries pre ++ objEntries post) ++ (arrEntries pre ++ arrEntries post) := by
      simp [subDictsOf, objEntries, arrEntries, List.filterMap_append]
    rw [hsc, hsub, hsub2]
    have hno : ∀ acc : Dict, dictUpdate acc (rekey k (flatten_dict ([] : Dict))) = acc :=
      fun acc => rfl
    simp only [List.foldl_append, List.foldl_cons, hno]
  · rw [flatten_dict_unfold, flatten_dict_unfold (pre ++ post)]
    have hsc : scalarsOf (pre ++ (k, JVal.arr []) :: post) = scalarsOf (pre ++ post) := by
      simp [scalarsOf, List.filter_append, List.filter_cons, isComposite]
    have hsub : subDictsOf (pre ++ (k, JVal.arr []) :: post)
        = (objEntries pre ++ objEntries post)
          ++ (arrEntries pre ++ (k, listToDict []) :: arrEntries post) := by
      simp [subDictsOf, objEntries, arrEntries, List.filterMap_append, List.filterMap_cons]
    have hsub2 : subDictsOf (pre ++ post)
        = (objEntries pre ++ objEntries post) ++ (arrEntries pre ++ arrEntries post) := by
      simp [subDictsOf, objEntries, arrEntries, List.filterMap_append]
    rw [hsc, hsub, hsub2]
    have hno : ∀ acc : Dict, dictUpdate acc (rekey k (flatten_dict (listToDict []))) = acc :=
      fun acc => rfl
    simp only [List.foldl_append, List.foldl_cons, hno]

/-- C9, witness: the empty-mapping entry `e` leaves no key in the output. -/
theorem c9_flatten_drops_empty_witness :
    (JVal.obj [] = JVal.obj [] ∨ JVal.obj [] = JVal.arr []) ∧
    flatten_dict [("p", JVal.num 1), ("e", JVal.obj []), ("q", JVal.str "s")]
      = flatten_dict [("p", JVal.num 1), ("q", JVal.str "s")] :=
  ⟨Or.inl rfl,
    c9_flatten_drops_empty [("p", JVal.num 1)] [("q", JVal.str "s")] "e"
      (JVal.obj []) (Or.inl rfl)⟩

/-- C10: the filter specification splits on the first `=` only: the field
part never contains `=`, and everything after the first `=` (further `=`
included) is the regular expression. -/
theorem c10_split_first (s : String) (h : '=' ∈ s.data) :
    ∃ k v : String, split_first_eq s = some (k, v) ∧ '=' ∉ k.data ∧
      s.data = k.data ++ '=' :: v.data := by
  obtain ⟨kl, vl, hs, hk, he⟩ := splitEqAux_spec s.data h
  refine ⟨⟨kl⟩, ⟨vl⟩, ?_, hk, he⟩
  rw [split_first_eq, hs]
  rfl

/-- C10, witness: a filter with two `=` characters splits after the first. -/
theorem c10_split_first_witness :
    '=' ∈ ("a=b=c").data ∧
    ∃ k v : String, split_first_eq "a=b=c" = some (k, v) ∧ '=' ∉ k.data ∧
      ("a=b=c").data = k.data ++ '=' :: v.data :=
  ⟨by decide, c10_split_first "a=b=c" (by decide)⟩
